import Mathlib

/- Verification of the SATCN core subsystems:
   * the safe correction applier (`src/satcn/core/filters/grammar_filter_safe.py`),
   * the structural extractor and reinserter (`pipeline/filters/markdown_parser.py`),
   * the diff engine (`src/satcn/gui/components/diff_engine.py`).

   Text is modelled as `List Char`; Python slicing `s[:i]` / `s[i:]` becomes
   `List.take` / `List.drop`, and `str.count` becomes `List.count`. -/

/-! ## Safe Correction Applier (`GrammarCorrectionFilterSafe`) -/
/-- A LanguageTool match object as used by `_process_text`: fields
`ruleId`, `offset`, `errorLength`, `replacements`. Replacement candidate
strings are modelled as `List Char`. -/
structure LTMatch where
  ruleId : String
  offset : Nat
  errorLength : Nat
  replacements : List (List Char)
deriving DecidableEq, Repr

/-- Source `GrammarCorrectionFilterSafe._get_safe_category`: classify a match by its
rule id through the hardcoded allow-list; any other rule id yields `none`
(the Python function returns `None`, i.e. the match is UNSAFE). -/
def getSafeCategory (m : LTMatch) : Option String :=
  if m.ruleId = "MORFOLOGIK_RULE_EN_US" ∨ m.ruleId = "ENGLISH_WORD_REPEAT_RULE" then
    some "TYPOS"
  else if m.ruleId = "COMMA_PARENTHESIS_WHITESPACE" ∨ m.ruleId = "EN_QUOTES" ∨
      m.ruleId = "UNPAIRED_BRACKETS" then
    some "PUNCTUATION"
  else if m.ruleId = "WHITESPACE_RULE" ∨ m.ruleId = "SENTENCE_WHITESPACE" then
    some "SPACING"
  else if m.ruleId = "UPPERCASE_SENTENCE_START" then
    some "CASING"
  else if m.ruleId = "PERSPECTIVE_AGREEMENT" then
    some "SIMPLE_AGREEMENT"
  else
    none

/-- The five structural marker characters checked by
`_validate_markdown_structure`: left bracket (91), right bracket (93),
left parenthesis (40), right parenthesis (41), backtick (96). -/
def markdownSymbols : List Char :=
  [Char.ofNat 91, Char.ofNat 93, Char.ofNat 40, Char.ofNat 41, Char.ofNat 96]

/-- Source `GrammarCorrectionFilterSafe._validate_markdown_structure`: parity check of
the counts of each structural marker between pre-edit and post-edit text. -/
def validateMarkdownStructure (originalText correctedText : List Char) : Bool :=
  markdownSymbols.all fun c => originalText.count c == correctedText.count c

/-- The per-span statistics dictionary, in the key order of `_process_text`. -/
def zeroStats : List (String × Nat) :=
  [("typos_fixed", 0), ("punctuation_fixed", 0), ("spacing_fixed", 0),
   ("casing_fixed", 0), ("simple_agreement_fixed", 0)]

/-- The stat key built by `_process_text`: lowercased category plus
`"_fixed"` (Python `f"{category.lower()}_fixed"`). -/
def statKeyOf (category : String) : String :=
  String.mk (category.data.map Char.toLower) ++ "_fixed"

/-- Python `stats[stat_key] += 1` guarded by `if stat_key in stats`: increment the
entry with the given key when present, otherwise leave the map unchanged. -/
def bumpStat (key : String) (stats : List (String × Nat)) : List (String × Nat) :=
  stats.map fun kv => if kv.1 = key then (kv.1, kv.2 + 1) else kv

/-- One iteration of the application loop of `_process_text`:
`corrected_text = corrected_text[:start] + replacement + corrected_text[end:]`
with `start = match.offset`, `end = match.offset + match.errorLength`,
`replacement = match.replacements[0]`. -/
def applyMatch (t : List Char) (m : LTMatch) : List Char :=
  t.take m.offset ++ m.replacements.headD [] ++ t.drop (m.offset + m.errorLength)

/-- The application loop run over a whole list of matches, in list order. -/
def applyMatches (t : List Char) (ms : List LTMatch) : List Char :=
  ms.foldl applyMatch t

/-- The filtering step of `_process_text`: keep `(match, category)` only when
`category` is some safe category and `match.replacements` is non-empty. -/
def safeMatchesOf (ms : List LTMatch) : List (LTMatch × String) :=
  ms.filterMap fun m =>
    match getSafeCategory m with
    | some c => if m.replacements.isEmpty then none else some (m, c)
    | none => none

/-- Stable insertion of an element into a list sorted by descending offset:
the element goes before the first strictly smaller offset, so elements with
equal offsets keep their original relative order. -/
def insertByOffsetDesc (x : LTMatch × String) :
    List (LTMatch × String) → List (LTMatch × String)
  | [] => [x]
  | y :: ys => if y.1.offset < x.1.offset then x :: y :: ys else y :: insertByOffsetDesc x ys

/-- Python `safe_matches.sort(key=lambda item: item[0].offset, reverse=True)`:
Python's sort is stable, so this is the stable sort by descending offset,
modelled as stable insertion sort (extensionally equal to any stable sort). -/
def sortByOffsetDesc (l : List (LTMatch × String)) : List (LTMatch × String) :=
  l.foldr insertByOffsetDesc []

/-- The combined application loop of `_process_text` (lines 101-110): thread
the corrected text and the stats dictionary over the sorted safe matches. -/
def applyLoop (t : List Char) (l : List (LTMatch × String)) :
    List Char × List (String × Nat) :=
  l.foldl (fun acc mc => (applyMatch acc.1 mc.1, bumpStat (statKeyOf mc.2) acc.2)) (t, zeroStats)

/-- Source `_process_text` from the match list onward (lines 92-117): filter to safe
matches, sort by descending offset, apply, then validate the markdown
structure; on validation failure return the original text and all-zero stats. -/
def processTextCore (text : List Char) (ms : List LTMatch) :
    List Char × List (String × Nat) :=
  let sorted := sortByOffsetDesc (safeMatchesOf ms)
  let r := applyLoop text sorted
  if validateMarkdownStructure text r.1 then r else (text, zeroStats)

/-- Source `_check_with_retry`, with `check i` the outcome of the i-th call to
`self.tool.check` and sleeping modelled by returning the list of delays (in
milliseconds; `delay = 0.5` seconds doubling) slept between attempts.
`fuel` is the number of attempts still allowed after the current one
(`max_attempts - attempt`); when it reaches zero the exception of the final
attempt propagates (`if attempt == max_attempts: raise exc`). -/
def checkLoop {E M : Type} (check : Nat → Except E M) :
    Nat → Nat → Nat → Except E M × List Nat
  | 0, attempt, _ => (check attempt, [])
  | fuel + 1, attempt, delay =>
    match check attempt with
    | .ok v => (.ok v, [])
    | .error _ =>
      let r := checkLoop check fuel (attempt + 1) (delay * 2)
      (r.1, delay :: r.2)

/-- Source `_check_with_retry` with the source constants `max_attempts = 3`,
initial `delay = 0.5` seconds (500 ms), starting at attempt 1. -/
def checkWithRetry {E M : Type} (check : Nat → Except E M) : Except E M × List Nat :=
  checkLoop check 2 1 500

/-- Source `_process_text` including the engine call (lines 79-117, with the
LanguageTool backend available): on an exception surviving the retries,
return the original text with all counters zero. -/
def processTextFull {E : Type} (check : Nat → Except E (List LTMatch))
    (text : List Char) : List Char × List (String × Nat) :=
  match (checkWithRetry check).1 with
  | .error _ => (text, zeroStats)
  | .ok ms => processTextCore text ms

/-- Signed length change contributed by applying one match:
`len(replacement) - match.errorLength`. -/
def matchDelta (m : LTMatch) : Int :=
  ((m.replacements.headD []).length : Int) - (m.errorLength : Int)

/-- Matches listed in descending-offset order, pairwise non-overlapping:
each later (lower-offset) match ends at or before each earlier one starts. -/
def DescNonOverlap (ms : List LTMatch) : Prop :=
  List.Pairwise (fun a b => b.offset + b.errorLength ≤ a.offset) ms

/-- Every match lies within the text. -/
def InBounds (t : List Char) (ms : List LTMatch) : Prop :=
  ∀ m ∈ ms, m.offset + m.errorLength ≤ t.length

instance (ms : List LTMatch) : Decidable (DescNonOverlap ms) := by
  unfold DescNonOverlap; infer_instance

instance (t : List Char) (ms : List LTMatch) : Decidable (InBounds t ms) := by
  unfold InBounds; infer_instance

/-! ## Structural Reinserter (`MarkdownOutputGenerator.process`) -/
/-- One tree element's mutable text fields (`.text` and `.tail`);
`None` is modelled as the empty list. -/
structure TreeEl where
  text : List Char
  tail : List Char
deriving DecidableEq, Repr

/-- The value assigned to `element.tail` by `MarkdownOutputGenerator.process`:
`element.tail = ' ' + block['content'] if block['content'] else ''`, which by
Python operator precedence is `(' ' + content) if content else ''`. -/
def tailWriteValue (content : List Char) : List Char :=
  if content ≠ [] then ' ' :: content else []

/-- The tree-update loop of `MarkdownOutputGenerator.process` (step 1): for
each block `(element_id, is_tail, content)`, write the content to the
element's text, or the tail-write value to the element's tail. Elements are
addressed by a stable identifier. -/
def applyBlocks (blocks : List (Nat × Bool × List Char)) (tree : Nat → TreeEl) :
    Nat → TreeEl :=
  blocks.foldl
    (fun t blk => fun n =>
      if n = blk.1 then
        if blk.2.1 then { t n with tail := tailWriteValue blk.2.2 }
        else { t n with text := blk.2.2 }
      else t n)
    tree

/-! ## Structural Extractor (`_TextExtractorTreeprocessor._extract_text`) -/
/-- A node of the parsed markdown element tree: tag, own text, children,
trailing text (tail). `None` text/tail is modelled as the empty list. -/
inductive Element where
  | mk (tag : String) (text : List Char) (children : List Element) (tail : List Char)

def Element.textOf : Element → List Char
  | .mk _ t _ _ => t

def Element.childrenOf : Element → List Element
  | .mk _ _ c _ => c

def Element.tailOf : Element → List Char
  | .mk _ _ _ t => t

/-- Python `str.strip()`: drop whitespace from both ends. -/
def strip (l : List Char) : List Char :=
  ((l.dropWhile Char.isWhitespace).reverse.dropWhile Char.isWhitespace).reverse

/-- One extracted text block: its content and a back-reference, modelled as
the path of child indices from the root plus the `is_tail` flag. -/
structure Span where
  content : List Char
  path : List Nat
  isTl : Bool
deriving DecidableEq, Repr

mutual
/-- Source `_extract_text(element)`: emit the element's own stripped text when
non-empty after stripping, then walk the children. -/
def extractEl (p : List Nat) : Element → List Span
  | .mk _ tx children _ =>
    (if strip tx ≠ [] then [⟨strip tx, p, false⟩] else []) ++ extractKids p 0 children

/-- The child loop of `_extract_text`: recurse into each child, then emit the
child's stripped tail when non-empty after stripping. -/
def extractKids (p : List Nat) (i : Nat) : List Element → List Span
  | [] => []
  | c :: rest =>
    extractEl (p ++ [i]) c ++
      (if strip c.tailOf ≠ [] then [⟨strip c.tailOf, p ++ [i], true⟩] else []) ++
      extractKids p (i + 1) rest
end

/-- Document-order key of a tree path: child index `i` becomes `2*i+1`, so
that a node's own text slot (`0`) sorts before its children and a child's
tail slot (`2*i+2`) sorts after the child's subtree but before the next
sibling (`2*(i+1)+1`). -/
def encPath (p : List Nat) : List Nat := p.map fun i => 2 * i + 1

/-- Document-order key of a span reference. -/
def spanKey (s : Span) : List Nat :=
  if s.isTl then encPath s.path.dropLast ++ [2 * s.path.getLastD 0 + 2]
  else encPath s.path ++ [0]

/-- Strict lexicographic order on key lists. -/
def keyLtB : List Nat → List Nat → Bool
  | [], [] => false
  | [], _ :: _ => true
  | _ :: _, [] => false
  | a :: as, b :: bs => if a < b then true else if a = b then keyLtB as bs else false

/-- The document order as a relation. -/
def keyRel (x y : List Nat) : Prop := keyLtB x y = true

/-! ## Diff Engine (`DiffEngine`) -/
/-- Python `\w` word character (ASCII model): alphanumeric or underscore. -/
def isWordChar (c : Char) : Bool := c.isAlphanum || c = '_'

/-- The apostrophe character. -/
def apostChar : Char := Char.ofNat 39

/-- Length of the maximal word-character run of `s` starting at index `i`. -/
def wordRun (s : List Char) (i : Nat) : Nat :=
  ((s.drop i).takeWhile isWordChar).length

/-- End position of the word token starting at `i`: the maximal word run,
optionally extended over an apostrophe followed by a word run
(regex `\w+(?:'\w+)?`). -/
def wordEnd (s : List Char) (i : Nat) : Nat :=
  if i + wordRun s i < s.length ∧ s.getD (i + wordRun s i) ' ' = apostChar ∧
      i + wordRun s i + 1 < s.length ∧ isWordChar (s.getD (i + wordRun s i + 1) ' ') then
    (i + wordRun s i + 1) + wordRun s (i + wordRun s i + 1)
  else i + wordRun s i

/-- Source `DiffEngine._tokenize_with_positions`: the scan of
`re.finditer(r"\b\w+(?:'\w+)?\b|[^\w\s]", text)`, modelled directly: at a
word character take the maximal word run, optionally extended over an
apostrophe followed by word characters; at any other non-whitespace
character emit it as a one-character token; skip whitespace. Each token is
`(word, start_pos, end_pos)`. `fuel` bounds the number of scan steps and is
instantiated with `s.length + 1`, which each step's strict progress makes
sufficient. -/
def tokenizeGo (s : List Char) : Nat → Nat → List (String × Nat × Nat)
  | 0, _ => []
  | fuel + 1, i =>
    if i < s.length then
      if isWordChar (s.getD i ' ') then
        (String.mk ((s.drop i).take (wordEnd s i - i)), i, wordEnd s i) ::
          tokenizeGo s fuel (wordEnd s i)
      else if !(s.getD i ' ').isWhitespace then
        (String.mk [s.getD i ' '], i, i + 1) :: tokenizeGo s fuel (i + 1)
      else
        tokenizeGo s fuel (i + 1)
    else []

/-- Tokenize a whole text. -/
def tokenizeWithPositions (s : List Char) : List (String × Nat × Nat) :=
  tokenizeGo s (s.length + 1) 0

/-- Length of the common run of `a` and `b` starting at `(i, j)`, confined to
`a[..ahi]`, `b[..bhi]` — the inner extension of `difflib`'s matching-block
search. `fuel` is instantiated with `ahi - i`, which is exact. -/
def matchLenGo {α : Type} [DecidableEq α] (a b : List α) (ahi bhi : Nat) :
    Nat → Nat → Nat → Nat
  | 0, _, _ => 0
  | fuel + 1, i, j =>
    if i < ahi ∧ j < bhi ∧ i < a.length ∧ j < b.length ∧ a[i]? = b[j]? then
      1 + matchLenGo a b ahi bhi fuel (i + 1) (j + 1)
    else 0

def matchLen {α : Type} [DecidableEq α] (a b : List α) (ahi bhi i j : Nat) : Nat :=
  matchLenGo a b ahi bhi (ahi - i) i j

/-- Modelled from the spec: the paragraph/word alignment of the diff engine
(`difflib.SequenceMatcher.find_longest_match` with no junk; the stdlib's
autojunk heuristic only activates on sequences of 200+ elements and is
omitted). Returns the maximal matching block of `a[alo:ahi]` and
`b[blo:bhi]` that starts earliest in `a`, then earliest in `b`; `(alo, blo,
0)` when there is no match. -/
def findLongestMatch {α : Type} [DecidableEq α] (a b : List α)
    (alo ahi blo bhi : Nat) : Nat × Nat × Nat :=
  (List.range' alo (ahi - alo)).foldl
    (fun best i =>
      (List.range' blo (bhi - blo)).foldl
        (fun best j =>
          let k := matchLen a b ahi bhi i j
          if best.2.2 < k then (i, j, k) else best)
        best)
    (alo, blo, 0)

/-- Modelled from the spec: `difflib.SequenceMatcher.get_matching_blocks`
recursion — find the longest match, then recurse on the regions to its left
and to its right. `fuel` bounds the recursion depth and is instantiated with
`a.length + b.length + 1`, which the strictly shrinking regions make
sufficient. -/
def matchingBlocksGo {α : Type} [DecidableEq α] (a b : List α) :
    Nat → Nat → Nat → Nat → Nat → List (Nat × Nat × Nat)
  | 0, _, _, _, _ => []
  | fuel + 1, alo, ahi, blo, bhi =>
    let r := findLongestMatch a b alo ahi blo bhi
    if 0 < r.2.2 then
      matchingBlocksGo a b fuel alo r.1 blo r.2.1 ++
        r :: matchingBlocksGo a b fuel (r.1 + r.2.2) ahi (r.2.1 + r.2.2) bhi
    else []

/-- All matching blocks in order, ended by the `(len(a), len(b), 0)`
sentinel. -/
def getMatchingBlocks {α : Type} [DecidableEq α] (a b : List α) :
    List (Nat × Nat × Nat) :=
  matchingBlocksGo a b (a.length + b.length + 1) 0 a.length 0 b.length ++
    [(a.length, b.length, 0)]

/-- One alignment opcode `(tag, i1, i2, j1, j2)`. -/
structure Op where
  tag : String
  i1 : Nat
  i2 : Nat
  j1 : Nat
  j2 : Nat
deriving DecidableEq, Repr

/-- Modelled from the spec: `difflib.SequenceMatcher.get_opcodes` — walk the
matching blocks with a cursor `(i, j)`; a gap before a block becomes a
`replace`/`delete`/`insert` opcode and the block itself an `equal` opcode. -/
def opcodesFrom (i j : Nat) : List (Nat × Nat × Nat) → List Op
  | [] => []
  | blk :: rest =>
    (if i < blk.1 ∧ j < blk.2.1 then [⟨"replace", i, blk.1, j, blk.2.1⟩]
     else if i < blk.1 then [⟨"delete", i, blk.1, j, blk.2.1⟩]
     else if j < blk.2.1 then [⟨"insert", i, blk.1, j, blk.2.1⟩]
     else []) ++
    (if 0 < blk.2.2 then [⟨"equal", blk.1, blk.1 + blk.2.2, blk.2.1, blk.2.1 + blk.2.2⟩]
     else []) ++
    opcodesFrom (blk.1 + blk.2.2) (blk.2.1 + blk.2.2) rest

/-- The opcodes aligning `a` and `b`. -/
def getOpcodes {α : Type} [DecidableEq α] (a b : List α) : List Op :=
  opcodesFrom 0 0 (getMatchingBlocks a b)

/-- The highlight tuples of the tokens with indices in `[i1, i2)`. -/
def tokRanges (toks : List (String × Nat × Nat)) (i1 i2 : Nat) (tag : String) :
    List (Nat × Nat × String) :=
  (List.range' i1 (i2 - i1)).map fun k =>
    ((toks.getD k ("", 0, 0)).2.1, (toks.getD k ("", 0, 0)).2.2, tag)

/-- Source `DiffEngine.highlight_changes`: tokenize both texts, align the token
word sequences, and emit `(start, end, "delete")` tuples against the
original for `delete`/`replace` opcodes and `(start, end, "insert")` tuples
against the corrected for `insert`/`replace` opcodes; `equal` opcodes emit
nothing. -/
def highlightChanges (original corrected : List Char) :
    List (Nat × Nat × String) × List (Nat × Nat × String) :=
  let ow := tokenizeWithPositions original
  let cw := tokenizeWithPositions corrected
  let ops := getOpcodes (ow.map (·.1)) (cw.map (·.1))
  (ops.flatMap fun op =>
      if op.tag = "delete" then tokRanges ow op.i1 op.i2 "delete"
      else if op.tag = "replace" then tokRanges ow op.i1 op.i2 "delete"
      else [],
    ops.flatMap fun op =>
      if op.tag = "insert" then tokRanges cw op.j1 op.j2 "insert"
      else if op.tag = "replace" then tokRanges cw op.j1 op.j2 "insert"
      else [])

/-- A line counts as content when it has a non-whitespace character
(Python `line.strip()` truthiness). -/
def lineHasContent (l : List Char) : Bool := l.any fun c => !c.isWhitespace

/-- The accumulation loop of `DiffEngine._split_paragraphs`: content lines
are gathered into the current paragraph; a blank line flushes it. -/
def splitParasGo : List (List Char) → List (List Char) → List (List Char)
  | [], current => if current = [] then [] else [List.intercalate ['\n'] current]
  | l :: rest, current =>
    if lineHasContent l then splitParasGo rest (current ++ [l])
    else if current = [] then splitParasGo rest []
    else List.intercalate ['\n'] current :: splitParasGo rest []

/-- Source `DiffEngine._split_paragraphs`: split on newlines, then gather blank-line
separated paragraphs (lines are split on `'\n'`; `str.splitlines`' other
line terminators are not modelled). -/
def splitParagraphs (s : List Char) : List (List Char) :=
  splitParasGo (s.splitOn '\n') []

/-- A paragraph-level difference (`DiffBlock` dataclass). -/
structure DiffBlock where
  paragraphNumber : Nat
  originalText : List Char
  correctedText : List Char
  changeType : String
  lineNumber : Nat
  originalHighlights : List (Nat × Nat × String)
  correctedHighlights : List (Nat × Nat × String)
deriving DecidableEq, Repr

/-- Newlines in a paragraph, for the running line counter. -/
def nlCount (p : List Char) : Nat := p.count '\n'

/-- The `replace` branch of `compute_paragraph_diffs`: one `modified` block
per zipped index pair, threading the paragraph and line counters. -/
def emitModifiedGo (origPs corrPs : List (List Char)) :
    List (Nat × Nat) → Nat → Nat → List DiffBlock
  | [], _, _ => []
  | ij :: rest, line, para =>
    let o := origPs.getD ij.1 []
    let c := corrPs.getD ij.2 []
    let hl := highlightChanges o c
    ⟨para + 1, o, c, "modified", line, hl.1, hl.2⟩ ::
      emitModifiedGo origPs corrPs rest (line + nlCount o + 1) (para + 1)

/-- The `delete` branch: one `deleted` block per original index. -/
def emitDeletedGo (origPs : List (List Char)) :
    List Nat → Nat → Nat → List DiffBlock
  | [], _, _ => []
  | i :: rest, line, para =>
    let o := origPs.getD i []
    ⟨para + 1, o, [], "deleted", line, [], []⟩ ::
      emitDeletedGo origPs rest (line + nlCount o + 1) (para + 1)

/-- The `insert` branch: one `added` block per corrected index; the line
counter is not advanced (as in the source). -/
def emitAddedGo (corrPs : List (List Char)) :
    List Nat → Nat → Nat → List DiffBlock
  | [], _, _ => []
  | j :: rest, line, para =>
    ⟨para + 1, [], corrPs.getD j [], "added", line, [], []⟩ ::
      emitAddedGo corrPs rest line (para + 1)

/-- The opcode loop of `DiffEngine.compute_paragraph_diffs` (lines 90-151):
`equal` emits nothing but advances both counters; `replace` emits `modified`
blocks for the zipped (truncating, `strict=False`) index pairs; `delete` and
`insert` emit `deleted` / `added` blocks. -/
def emitBlocksGo (origPs corrPs : List (List Char)) :
    List Op → Nat → Nat → List DiffBlock
  | [], _, _ => []
  | op :: rest, line, para =>
    if op.tag = "equal" then
      emitBlocksGo origPs corrPs rest
        (line + ((List.range' op.i1 (op.i2 - op.i1)).map
          (fun i => nlCount (origPs.getD i []) + 1)).sum)
        (para + (op.i2 - op.i1))
    else if op.tag = "replace" then
      let pairs := (List.range' op.i1 (op.i2 - op.i1)).zip
        (List.range' op.j1 (op.j2 - op.j1))
      emitModifiedGo origPs corrPs pairs line para ++
        emitBlocksGo origPs corrPs rest
          (line + (pairs.map (fun ij => nlCount (origPs.getD ij.1 []) + 1)).sum)
          (para + pairs.length)
    else if op.tag = "delete" then
      emitDeletedGo origPs (List.range' op.i1 (op.i2 - op.i1)) line para ++
        emitBlocksGo origPs corrPs rest
          (line + ((List.range' op.i1 (op.i2 - op.i1)).map
            (fun i => nlCount (origPs.getD i []) + 1)).sum)
          (para + (op.i2 - op.i1))
    else if op.tag = "insert" then
      emitAddedGo corrPs (List.range' op.j1 (op.j2 - op.j1)) line para ++
        emitBlocksGo origPs corrPs rest line (para + (op.j2 - op.j1))
    else
      emitBlocksGo origPs corrPs rest line para

/-- Source `DiffEngine.compute_paragraph_diffs` from the two file contents onward:
split both texts into paragraphs, align them, and emit the diff blocks
(initial `line_number = 1`, `paragraph_number = 0`). -/
def computeParagraphDiffs (originalText correctedText : List Char) :
    List DiffBlock :=
  let origPs := splitParagraphs originalText
  let corrPs := splitParagraphs correctedText
  emitBlocksGo origPs corrPs (getOpcodes origPs corrPs) 1 0

/-- Tokens in scan order starting at position `i`: each token has
`start < end`, ends within the text, and starts at or after the previous
token's end. -/
def ToksOrdered (len : Nat) : Nat → List (String × Nat × Nat) → Prop
  | _, [] => True
  | i, tk :: rest => i ≤ tk.2.1 ∧ tk.2.1 < tk.2.2 ∧ tk.2.2 ≤ len ∧ ToksOrdered len tk.2.2 rest

/-- Invariant of the best-match fold: the running best is either the initial
empty block or a genuine in-range block. -/
def FlmInv (alo ahi blo bhi : Nat) (best : Nat × Nat × Nat) : Prop :=
  best = (alo, blo, 0) ∨
    (alo ≤ best.1 ∧ blo ≤ best.2.1 ∧ 0 < best.2.2 ∧
      best.1 + best.2.2 ≤ ahi ∧ best.2.1 + best.2.2 ≤ bhi)

/-- Matching blocks walked by a cursor `(i, j)`: each block starts at or
after the cursor and the final cursor stays within `(nhi, mhi)`. -/
def Chained (nhi mhi : Nat) : Nat → Nat → List (Nat × Nat × Nat) → Prop
  | i, j, [] => i ≤ nhi ∧ j ≤ mhi
  | i, j, blk :: rest =>
    i ≤ blk.1 ∧ j ≤ blk.2.1 ∧ Chained nhi mhi (blk.1 + blk.2.2) (blk.2.1 + blk.2.2) rest

/-- Opcodes walked by a cursor: each opcode starts at the cursor or later,
has non-decreasing index ranges, and the final cursor stays within
`(nhi, mhi)`. -/
def OpsOrdered (nhi mhi : Nat) : Nat → Nat → List Op → Prop
  | i, j, [] => i ≤ nhi ∧ j ≤ mhi
  | i, j, op :: rest =>
    i ≤ op.i1 ∧ op.i1 ≤ op.i2 ∧ j ≤ op.j1 ∧ op.j1 ≤ op.j2 ∧
      OpsOrdered nhi mhi op.i2 op.j2 rest

/-- Highlight tuples in order: each `(start, end, tag)` has `start < end`,
ends within the text, and starts at or after the previous tuple's end. -/
def RangesOrdered (len : Nat) : Nat → List (Nat × Nat × String) → Prop
  | _, [] => True
  | lo, r :: rest => lo ≤ r.1 ∧ r.1 < r.2.1 ∧ r.2.1 ≤ len ∧ RangesOrdered len r.2.1 rest

/-- Original-side token indices covered by an opcode's highlight loop:
`delete` and `replace` opcodes highlight `range(i1, i2)`. -/
def opAIdx (op : Op) : List Nat :=
  if op.tag = "delete" ∨ op.tag = "replace" then List.range' op.i1 (op.i2 - op.i1) else []

/-- Corrected-side token indices covered by an opcode's highlight loop:
`insert` and `replace` opcodes highlight `range(j1, j2)`. -/
def opBIdx (op : Op) : List Nat :=
  if op.tag = "insert" ∨ op.tag = "replace" then List.range' op.j1 (op.j2 - op.j1) else []

/-! ## Theorems -/

theorem applyMatch_length_eq (t : List Char) (m : LTMatch) :
    (applyMatch t m).length =
      min m.offset t.length + (m.replacements.headD []).length +
        (t.length - (m.offset + m.errorLength)) := by
  simp [applyMatch]
  omega

theorem applyMatch_length_int (t : List Char) (m : LTMatch)
    (h : m.offset + m.errorLength ≤ t.length) :
    ((applyMatch t m).length : Int) = t.length + matchDelta m := by
  have h1 := applyMatch_length_eq t m
  unfold matchDelta
  omega

theorem offset_le_applyMatch_length (t : List Char) (m : LTMatch)
    (h : m.offset ≤ t.length) :
    m.offset ≤ (applyMatch t m).length := by
  have h1 := applyMatch_length_eq t m
  omega

theorem applyMatch_take (t : List Char) (m : LTMatch) (k : Nat)
    (h1 : k ≤ m.offset) (h2 : m.offset ≤ t.length) :
    (applyMatch t m).take k = t.take k := by
  have hlen : (t.take m.offset).length = m.offset := by
    simp [List.length_take]
    omega
  unfold applyMatch
  rw [List.append_assoc, List.take_append_eq_append_take, hlen, List.take_take]
  have hk : k - m.offset = 0 := by omega
  have hmin : min k m.offset = k := by omega
  rw [hk, hmin]
  simp

theorem applyMatches_length (ms : List LTMatch) :
    ∀ t : List Char, DescNonOverlap ms → InBounds t ms →
      ((applyMatches t ms).length : Int) = t.length + (ms.map matchDelta).sum := by
  induction ms with
  | nil => intro t _ _; simp [applyMatches]
  | cons m tl ih =>
    intro t hdesc hbnd
    have hm : m.offset + m.errorLength ≤ t.length := hbnd m (by simp)
    have hdesc' : DescNonOverlap tl := (List.pairwise_cons.mp hdesc).2
    have hhead : ∀ b ∈ tl, b.offset + b.errorLength ≤ m.offset :=
      (List.pairwise_cons.mp hdesc).1
    have hbnd' : InBounds (applyMatch t m) tl := by
      intro b hb
      have h1 := hhead b hb
      have h2 := offset_le_applyMatch_length t m (by omega)
      omega
    have hstep : applyMatches t (m :: tl) = applyMatches (applyMatch t m) tl := rfl
    rw [hstep, ih (applyMatch t m) hdesc' hbnd',
      applyMatch_length_int t m hm]
    simp [List.sum_cons]
    ring

theorem applyMatches_take (ms : List LTMatch) :
    ∀ (t : List Char) (K : Nat), DescNonOverlap ms → InBounds t ms →
      (∀ m ∈ ms, K ≤ m.offset) → (applyMatches t ms).take K = t.take K := by
  induction ms with
  | nil => intro t K _ _ _; simp [applyMatches]
  | cons m tl ih =>
    intro t K hdesc hbnd hK
    have hm : m.offset + m.errorLength ≤ t.length := hbnd m (by simp)
    have hdesc' : DescNonOverlap tl := (List.pairwise_cons.mp hdesc).2
    have hhead : ∀ b ∈ tl, b.offset + b.errorLength ≤ m.offset :=
      (List.pairwise_cons.mp hdesc).1
    have hbnd' : InBounds (applyMatch t m) tl := by
      intro b hb
      have h1 := hhead b hb
      have h2 := offset_le_applyMatch_length t m (by omega)
      omega
    have hK' : ∀ b ∈ tl, K ≤ b.offset := fun b hb => hK b (by simp [hb])
    have hstep : applyMatches t (m :: tl) = applyMatches (applyMatch t m) tl := rfl
    rw [hstep, ih (applyMatch t m) K hdesc' hbnd' hK',
      applyMatch_take t m K (hK m (by simp)) (by omega)]

/-- C1: for every span text and every set of non-overlapping in-bounds
matches listed in descending-offset order, applying them (each replacing
`text[offset : offset+errorLength]` with its first replacement candidate)
yields a result whose length is the original length plus the sum of
`len(replacement) - errorLength` over the matches, and after applying any
prefix of higher-offset matches the text up to (and including) the edit
region of each not-yet-applied lower-offset match is unchanged. -/
theorem applier_offset_safety (t : List Char) (ms : List LTMatch)
    (hdesc : DescNonOverlap ms) (hbnd : InBounds t ms) :
    ((applyMatches t ms).length : Int) = t.length + (ms.map matchDelta).sum ∧
    ∀ l₁ m l₂, ms = l₁ ++ m :: l₂ →
      (applyMatches t l₁).take (m.offset + m.errorLength) =
        t.take (m.offset + m.errorLength) := by
  constructor
  · exact applyMatches_length ms t hdesc hbnd
  · intro l₁ m l₂ hsplit
    subst hsplit
    have hsplit1 := List.pairwise_append.mp hdesc
    apply applyMatches_take l₁ t (m.offset + m.errorLength) hsplit1.1
    · intro b hb
      exact hbnd b (by simp [hb])
    · intro b hb
      exact hsplit1.2.2 b hb m (by simp)

/-- Witness for C1 at the concrete text `"hello world"` with two
non-overlapping matches at offsets 6 and 0. -/
theorem applier_offset_safety_witness :
    DescNonOverlap
        [⟨"M", 6, 5, ["earth".data]⟩, ⟨"M", 0, 5, ["hey".data]⟩] ∧
      InBounds "hello world".data
        [⟨"M", 6, 5, ["earth".data]⟩, ⟨"M", 0, 5, ["hey".data]⟩] ∧
      ((applyMatches "hello world".data
            [⟨"M", 6, 5, ["earth".data]⟩, ⟨"M", 0, 5, ["hey".data]⟩]).length : Int) =
        ("hello world".data.length : Int) +
          (([⟨"M", 6, 5, ["earth".data]⟩, ⟨"M", 0, 5, ["hey".data]⟩].map matchDelta).sum) ∧
      (applyMatches "hello world".data [⟨"M", 6, 5, ["earth".data]⟩]).take (0 + 5) =
        "hello world".data.take (0 + 5) := by
  refine ⟨by decide, by decide, ?_, ?_⟩
  · exact (applier_offset_safety "hello world".data
      [⟨"M", 6, 5, ["earth".data]⟩, ⟨"M", 0, 5, ["hey".data]⟩]
      (by decide) (by decide)).1
  · exact (applier_offset_safety "hello world".data
      [⟨"M", 6, 5, ["earth".data]⟩, ⟨"M", 0, 5, ["hey".data]⟩]
      (by decide) (by decide)).2 [⟨"M", 6, 5, ["earth".data]⟩] ⟨"M", 0, 5, ["hey".data]⟩ [] rfl

/-- C2: if the structural-marker parity check fails on the text obtained by
applying the kept matches, `_process_text` returns exactly the original text
with every category counter zero. -/
theorem applier_revert_atomicity (text : List Char) (ms : List LTMatch)
    (hfail : validateMarkdownStructure text
        (applyLoop text (sortByOffsetDesc (safeMatchesOf ms))).1 = false) :
    processTextCore text ms = (text, zeroStats) := by
  simp [processTextCore, hfail]

/-- Witness for C2: a safe typo match that rewrites `"[]"` to `"x]"`,
breaking bracket parity, so the applier reverts. -/
theorem applier_revert_atomicity_witness :
    validateMarkdownStructure "[]".data
        (applyLoop "[]".data
          (sortByOffsetDesc (safeMatchesOf
            [⟨"MORFOLOGIK_RULE_EN_US", 0, 1, ["x".data]⟩]))).1 = false ∧
      processTextCore "[]".data [⟨"MORFOLOGIK_RULE_EN_US", 0, 1, ["x".data]⟩] =
        ("[]".data, zeroStats) := by
  refine ⟨by decide, ?_⟩
  exact applier_revert_atomicity "[]".data
    [⟨"MORFOLOGIK_RULE_EN_US", 0, 1, ["x".data]⟩] (by decide)

/-- C9: when the engine returns an empty match list, `_process_text` returns
the original text with all category counters zero. -/
theorem applier_no_matches_identity (text : List Char) :
    processTextCore text [] = (text, zeroStats) := by
  simp [processTextCore, safeMatchesOf, sortByOffsetDesc, applyLoop,
    validateMarkdownStructure]

/-- C6: a match whose category tag is not in the allow-list, or which has no
replacement candidates, is dropped by the filter: removing it from the match
list changes neither the corrected text nor any category counter, wherever it
occurs in the list. -/
theorem applier_unsafe_never_applied (m : LTMatch)
    (hdropped : getSafeCategory m = none ∨ m.replacements = [])
    (text : List Char) (l₁ l₂ : List LTMatch) :
    processTextCore text (l₁ ++ m :: l₂) = processTextCore text (l₁ ++ l₂) := by
  have hdrop : safeMatchesOf (l₁ ++ m :: l₂) = safeMatchesOf (l₁ ++ l₂) := by
    unfold safeMatchesOf
    rw [List.filterMap_append, List.filterMap_append, List.filterMap_cons]
    rcases hdropped with h | h
    · rw [h]
    · cases hc : getSafeCategory m with
      | none => rfl
      | some c => simp [h]
  simp [processTextCore, hdrop]

/-- Witness for C6: a match with unrecognized rule id `"SOME_FANCY_RULE"` and
a replacement candidate available is never applied. -/
theorem applier_unsafe_never_applied_witness :
    (getSafeCategory ⟨"SOME_FANCY_RULE", 0, 1, ["x".data]⟩ = none ∨
        (⟨"SOME_FANCY_RULE", 0, 1, ["x".data]⟩ : LTMatch).replacements = []) ∧
      processTextCore "ab".data
          ([] ++ (⟨"SOME_FANCY_RULE", 0, 1, ["x".data]⟩ : LTMatch) ::
            [⟨"MORFOLOGIK_RULE_EN_US", 1, 1, ["c".data]⟩]) =
        processTextCore "ab".data ([] ++ [⟨"MORFOLOGIK_RULE_EN_US", 1, 1, ["c".data]⟩]) := by
  refine ⟨by decide, ?_⟩
  exact applier_unsafe_never_applied ⟨"SOME_FANCY_RULE", 0, 1, ["x".data]⟩
    (by decide) "ab".data [] [⟨"MORFOLOGIK_RULE_EN_US", 1, 1, ["c".data]⟩]

/-- C7: if every call to the external annotator raises, the applier makes
exactly three attempts, sleeping the doubling delays 500 ms and 1000 ms
between them, and then returns the span unchanged with all category counters
zero instead of propagating the exception. -/
theorem applier_engine_failure {E : Type} (check : Nat → Except E (List LTMatch))
    (text : List Char) (hfail : ∀ i, ∃ e, check i = .error e) :
    processTextFull check text = (text, zeroStats) ∧
      (checkWithRetry check).2 = [500, 1000] := by
  obtain ⟨e1, h1⟩ := hfail 1
  obtain ⟨e2, h2⟩ := hfail 2
  obtain ⟨e3, h3⟩ := hfail 3
  constructor
  · simp [processTextFull, checkWithRetry, checkLoop, h1, h2, h3]
  · simp [checkWithRetry, checkLoop, h1, h2, h3]

/-- Witness for C7: an annotator that always raises. -/
theorem applier_engine_failure_witness :
    (∀ i : Nat, ∃ e : Unit, (fun _ : Nat => (Except.error () : Except Unit (List LTMatch))) i =
        .error e) ∧
      processTextFull (fun _ : Nat => (Except.error () : Except Unit (List LTMatch)))
          "ab".data = ("ab".data, zeroStats) ∧
      (checkWithRetry (fun _ : Nat => (Except.error () : Except Unit (List LTMatch)))).2 =
        [500, 1000] := by
  refine ⟨fun i => ⟨(), rfl⟩, ?_⟩
  exact applier_engine_failure (fun _ => .error ()) "ab".data (fun i => ⟨(), rfl⟩)

/-- Counterexample to C3: writing back a tail block whose corrected content is
empty leaves an empty tail, not a single space. -/
theorem reinserter_empty_tail_counterexample :
    (applyBlocks [(0, true, [])] (fun _ => ⟨"t".data, "old".data⟩) 0).tail = [] ∧
      ([] : List Char) ≠ [' '] := by
  constructor
  · rfl
  · decide

/-- C3 as amended: the tail write of `MarkdownOutputGenerator.process` sets
the tail of the referenced element to the empty string when the corrected
content is empty, and to a single space followed by the content when it is
non-empty; the element's text field is untouched by a tail write. -/
theorem reinserter_tail_write (bs : List (Nat × Bool × List Char))
    (tree : Nat → TreeEl) (n : Nat) (c : List Char) :
    ((applyBlocks (bs ++ [(n, true, c)]) tree) n).tail =
        (if c = [] then [] else ' ' :: c) ∧
      ((applyBlocks (bs ++ [(n, true, c)]) tree) n).text =
        ((applyBlocks bs tree) n).text := by
  unfold applyBlocks
  rw [List.foldl_append]
  by_cases hc : c = []
  · simp [hc, tailWriteValue]
  · simp [hc, tailWriteValue]

theorem keyLtB_append (p x y : List Nat) : keyLtB (p ++ x) (p ++ y) = keyLtB x y := by
  induction p with
  | nil => rfl
  | cons a p ih => simp [keyLtB, ih]

theorem keyRel_head {a b : Nat} (x y : List Nat) (h : a < b) :
    keyRel (a :: x) (b :: y) := by
  simp [keyRel, keyLtB, h]

theorem keyRel_append {p x y : List Nat} (h : keyRel x y) : keyRel (p ++ x) (p ++ y) := by
  simpa [keyRel, keyLtB_append] using h

theorem chain_append_all {α : Type} {R : α → α → Prop} {l₁ l₂ : List α}
    (h₁ : List.Chain' R l₁) (h₂ : List.Chain' R l₂)
    (h : ∀ x ∈ l₁, ∀ y ∈ l₂, R x y) : List.Chain' R (l₁ ++ l₂) :=
  List.Chain'.append h₁ h₂ fun x hx y hy =>
    h x (List.mem_of_mem_getLast? hx) y (List.mem_of_mem_head? hy)

theorem encPath_concat (p : List Nat) (i : Nat) :
    encPath (p ++ [i]) = encPath p ++ [2 * i + 1] := by
  simp [encPath]

theorem spanKey_own (c : List Char) (p : List Nat) :
    spanKey ⟨c, p, false⟩ = encPath p ++ [0] := by
  simp [spanKey]

theorem spanKey_tail (c : List Char) (p : List Nat) (i : Nat) :
    spanKey ⟨c, p ++ [i], true⟩ = encPath p ++ [2 * i + 2] := by
  simp [spanKey, List.dropLast_concat, List.getLastD_concat]

mutual
theorem extractEl_shape (p : List Nat) (e : Element) :
    ∀ s ∈ extractEl p e, s.content ≠ [] ∧ ∃ h t, spanKey s = encPath p ++ h :: t := by
  cases e with
  | mk tag tx children tl =>
    intro s hs
    simp only [extractEl] at hs
    rcases List.mem_append.mp hs with h1 | h2
    · by_cases hc : strip tx = []
      · simp [hc] at h1
      · simp [hc] at h1
        subst h1
        exact ⟨hc, 0, [], spanKey_own _ _⟩
    · obtain ⟨hne, h, t, hkey, _⟩ := extractKids_shape p 0 children s h2
      exact ⟨hne, h, t, hkey⟩

theorem extractKids_shape (p : List Nat) (i : Nat) (cs : List Element) :
    ∀ s ∈ extractKids p i cs,
      s.content ≠ [] ∧ ∃ h t, spanKey s = encPath p ++ h :: t ∧ 2 * i + 1 ≤ h := by
  cases cs with
  | nil => intro s hs; simp [extractKids] at hs
  | cons c rest =>
    intro s hs
    simp only [extractKids] at hs
    rcases List.mem_append.mp hs with h1 | hrest
    · rcases List.mem_append.mp h1 with hsub | htail
      · obtain ⟨hne, h, t, hkey⟩ := extractEl_shape (p ++ [i]) c s hsub
        rw [encPath_concat] at hkey
        exact ⟨hne, 2 * i + 1, h :: t, by simpa using hkey, le_refl _⟩
      · by_cases hc : strip c.tailOf = []
        · simp [hc] at htail
        · simp [hc] at htail
          subst htail
          exact ⟨hc, 2 * i + 2, [], by simpa using spanKey_tail _ p i, by omega⟩
    · obtain ⟨hne, h, t, hkey, hge⟩ := extractKids_shape p (i + 1) rest s hrest
      exact ⟨hne, h, t, hkey, by omega⟩
end

mutual
theorem extractEl_chain (p : List Nat) (e : Element) :
    List.Chain' keyRel ((extractEl p e).map spanKey) := by
  cases e with
  | mk tag tx children tl =>
    show List.Chain' keyRel ((extractEl p (.mk tag tx children tl)).map spanKey)
    simp only [extractEl, List.map_append]
    apply chain_append_all
    · by_cases hc : strip tx = [] <;> simp [hc]
    · exact extractKids_chain p 0 children
    · intro x hx y hy
      by_cases hc : strip tx = []
      · simp [hc] at hx
      · simp [hc] at hx
        obtain ⟨s, hsmem, hsy⟩ := List.mem_map.mp hy
        obtain ⟨_, h, t, hkey, hge⟩ := extractKids_shape p 0 children s hsmem
        subst hx
        rw [← hsy, hkey, spanKey_own]
        exact keyRel_append (keyRel_head _ _ (by omega))

theorem extractKids_chain (p : List Nat) (i : Nat) (cs : List Element) :
    List.Chain' keyRel ((extractKids p i cs).map spanKey) := by
  cases cs with
  | nil => simp [extractKids]
  | cons c rest =>
    show List.Chain' keyRel ((extractKids p i (c :: rest)).map spanKey)
    simp only [extractKids, List.map_append]
    rw [List.append_assoc]
    apply chain_append_all
    · exact extractEl_chain (p ++ [i]) c
    · apply chain_append_all
      · by_cases hc : strip c.tailOf = [] <;> simp [hc]
      · exact extractKids_chain p (i + 1) rest
      · intro x hx y hy
        by_cases hc : strip c.tailOf = []
        · simp [hc] at hx
        · simp [hc] at hx
          obtain ⟨s, hsmem, hsy⟩ := List.mem_map.mp hy
          obtain ⟨_, h, t, hkey, hge⟩ := extractKids_shape p (i + 1) rest s hsmem
          subst hx
          rw [← hsy, hkey, spanKey_tail]
          exact keyRel_append (keyRel_head _ _ (by omega))
    · intro x hx y hy
      obtain ⟨s, hsmem, hsx⟩ := List.mem_map.mp hx
      obtain ⟨_, h, t, hkey⟩ := extractEl_shape (p ++ [i]) c s hsmem
      rw [encPath_concat] at hkey
      rcases List.mem_append.mp hy with hy1 | hy2
      · by_cases hc : strip c.tailOf = []
        · simp [hc] at hy1
        · simp [hc] at hy1
          rw [← hsx, hkey, List.append_assoc, hy1, spanKey_tail]
          exact keyRel_append (keyRel_head _ _ (by omega))
      · obtain ⟨s', hsmem', hsy⟩ := List.mem_map.mp hy2
        obtain ⟨_, h', t', hkey', hge'⟩ := extractKids_shape p (i + 1) rest s' hsmem'
        rw [← hsx, hkey, List.append_assoc, ← hsy, hkey']
        exact keyRel_append (keyRel_head _ _ (by omega))
end

/-- C5: the extractor emits spans in pre-order document order — the span keys
(own-text slot before children, each child's tail slot after that child's
subtree and before the next sibling) are strictly increasing along the
emitted list — no span with empty-after-stripping content is ever emitted, a
child's non-empty stripped tail is emitted referencing `(child, is_tail=true)`
within the child loop, and a node's non-empty stripped own text is the first
span emitted for that node, referencing `(node, is_tail=false)`. -/
theorem extractor_preorder (e : Element) :
    List.Chain' keyRel ((extractEl [] e).map spanKey) ∧
      (∀ s ∈ extractEl [] e, s.content ≠ []) ∧
      (∀ (p : List Nat) (i : Nat) (c : Element) (rest : List Element),
        strip c.tailOf ≠ [] →
          (⟨strip c.tailOf, p ++ [i], true⟩ : Span) ∈ extractKids p i (c :: rest)) ∧
      (strip e.textOf ≠ [] → (extractEl [] e).head? = some ⟨strip e.textOf, [], false⟩) := by
  refine ⟨extractEl_chain [] e, ?_, ?_, ?_⟩
  · intro s hs
    exact (extractEl_shape [] e s hs).1
  · intro p i c rest h
    simp [extractKids, h]
  · intro h
    cases e with
    | mk tag tx children tl =>
      simp only [Element.textOf] at h
      simp [extractEl, Element.textOf, h]

/-- Witness for C5 on a concrete two-level tree with an own-text span, a
child span and a non-empty child tail. -/
theorem extractor_preorder_witness :
    List.Chain' keyRel
        ((extractEl [] (.mk "p" "hi".data [.mk "em" "x".data [] " there ".data] [])).map
          spanKey) ∧
      (∀ s ∈ extractEl [] (.mk "p" "hi".data [.mk "em" "x".data [] " there ".data] []),
        s.content ≠ []) ∧
      strip (Element.mk "em" "x".data [] " there ".data).tailOf ≠ [] ∧
      (⟨strip (Element.mk "em" "x".data [] " there ".data).tailOf, [0], true⟩ : Span) ∈
        extractKids [] 0 [.mk "em" "x".data [] " there ".data] ∧
      (extractEl [] (.mk "p" "hi".data [.mk "em" "x".data [] " there ".data] [])).head? =
        some ⟨"hi".data, [], false⟩ := by
  have h := extractor_preorder (.mk "p" "hi".data [.mk "em" "x".data [] " there ".data] [])
  refine ⟨h.1, h.2.1, by decide, ?_, ?_⟩
  · have := h.2.2.1 [] 0 (.mk "em" "x".data [] " there ".data) [] (by decide)
    simpa using this
  · have := h.2.2.2 (by decide)
    simpa using this

theorem wordRun_le (s : List Char) (i : Nat) : wordRun s i ≤ s.length - i := by
  have h := (List.takeWhile_sublist (l := s.drop i) isWordChar).length_le
  simpa [wordRun] using h

theorem wordRun_pos (s : List Char) (i : Nat) (hi : i < s.length)
    (hw : isWordChar (s.getD i ' ') = true) : 0 < wordRun s i := by
  unfold wordRun
  rw [List.drop_eq_getElem_cons hi, List.takeWhile_cons]
  rw [List.getD_eq_getElem s ' ' hi] at hw
  simp [hw]

theorem wordEnd_le (s : List Char) (i : Nat) (hi : i ≤ s.length) :
    wordEnd s i ≤ s.length := by
  unfold wordEnd
  have h1 := wordRun_le s i
  split
  · next h =>
    have h2 := wordRun_le s (i + wordRun s i + 1)
    omega
  · omega

theorem wordEnd_gt (s : List Char) (i : Nat) (hi : i < s.length)
    (hw : isWordChar (s.getD i ' ') = true) : i < wordEnd s i := by
  unfold wordEnd
  have h1 := wordRun_pos s i hi hw
  split <;> omega

theorem toksOrdered_mono {len : Nat} :
    ∀ (l : List (String × Nat × Nat)) (i j : Nat), i ≤ j → ToksOrdered len j l →
      ToksOrdered len i l := by
  intro l i j hij h
  cases l with
  | nil => trivial
  | cons tk rest =>
    obtain ⟨h1, h2, h3, h4⟩ := h
    exact ⟨by omega, h2, h3, h4⟩

theorem tokenizeGo_ordered (s : List Char) :
    ∀ (fuel i : Nat), ToksOrdered s.length i (tokenizeGo s fuel i) := by
  intro fuel
  induction fuel with
  | zero => intro i; simp only [tokenizeGo]; trivial
  | succ fuel ih =>
    intro i
    rw [tokenizeGo]
    by_cases hi : i < s.length
    · rw [if_pos hi]
      by_cases hw : isWordChar (s.getD i ' ')
      · rw [if_pos hw]
        exact ⟨le_refl i, wordEnd_gt s i hi hw, wordEnd_le s i (by omega), ih (wordEnd s i)⟩
      · rw [if_neg hw]
        by_cases hsp : !(s.getD i ' ').isWhitespace
        · rw [if_pos hsp]
          refine ⟨le_refl i, ?_, ?_, ih (i + 1)⟩ <;> simp <;> omega
        · rw [if_neg hsp]
          exact toksOrdered_mono _ i (i + 1) (by omega) (ih (i + 1))
    · rw [if_neg hi]; trivial

theorem toksOrdered_getD {len : Nat} :
    ∀ (toks : List (String × Nat × Nat)) (i : Nat), ToksOrdered len i toks →
      ∀ k, k < toks.length →
        i ≤ (toks.getD k ("", 0, 0)).2.1 ∧
          (toks.getD k ("", 0, 0)).2.1 < (toks.getD k ("", 0, 0)).2.2 ∧
          (toks.getD k ("", 0, 0)).2.2 ≤ len := by
  intro toks
  induction toks with
  | nil => intro i _ k hk; simp at hk
  | cons tk rest ih =>
    intro i h k hk
    obtain ⟨h1, h2, h3, h4⟩ := h
    cases k with
    | zero => simpa [List.getD] using ⟨h1, h2, h3⟩
    | succ k =>
      have hk' : k < rest.length := by simpa using hk
      have := ih tk.2.2 h4 k hk'
      refine ⟨?_, ?_, ?_⟩ <;> simp only [List.getD_cons_succ] <;> omega

theorem toksOrdered_pair {len : Nat} :
    ∀ (toks : List (String × Nat × Nat)) (i : Nat), ToksOrdered len i toks →
      ∀ k k', k < k' → k' < toks.length →
        (toks.getD k ("", 0, 0)).2.2 ≤ (toks.getD k' ("", 0, 0)).2.1 := by
  intro toks
  induction toks with
  | nil => intro i _ k k' _ hk'; simp at hk'
  | cons tk rest ih =>
    intro i h k k' hkk hk'
    obtain ⟨h1, h2, h3, h4⟩ := h
    cases k' with
    | zero => omega
    | succ k' =>
      have hk'' : k' < rest.length := by simpa using hk'
      cases k with
      | zero =>
        have := (toksOrdered_getD rest tk.2.2 h4 k' hk'').1
        simpa [List.getD_cons_succ, List.getD] using this
      | succ k =>
        have := ih tk.2.2 h4 k k' (by omega) hk''
        simpa [List.getD_cons_succ] using this

theorem foldlPreserve {α β : Type} {P : β → Prop} {f : β → α → β} :
    ∀ (l : List α) (init : β), P init → (∀ b a, P b → a ∈ l → P (f b a)) →
      P (l.foldl f init) := by
  intro l
  induction l with
  | nil => intro init h0 _; exact h0
  | cons a l ih =>
    intro init h0 hstep
    exact ih (f init a) (hstep init a h0 (by simp))
      (fun b a' hb ha' => hstep b a' hb (by simp [ha']))

theorem matchLenGo_le {α : Type} [DecidableEq α] (a b : List α) (ahi bhi : Nat) :
    ∀ (fuel i j : Nat), matchLenGo a b ahi bhi fuel i j ≤ ahi - i ∧
      matchLenGo a b ahi bhi fuel i j ≤ bhi - j := by
  intro fuel
  induction fuel with
  | zero => intro i j; simp [matchLenGo]
  | succ fuel ih =>
    intro i j
    rw [matchLenGo]
    split
    · next h =>
      have := ih (i + 1) (j + 1)
      omega
    · omega

theorem matchLen_le {α : Type} [DecidableEq α] (a b : List α) (ahi bhi i j : Nat) :
    matchLen a b ahi bhi i j ≤ ahi - i ∧ matchLen a b ahi bhi i j ≤ bhi - j :=
  matchLenGo_le a b ahi bhi (ahi - i) i j

theorem flm_inv {α : Type} [DecidableEq α] (a b : List α) (alo ahi blo bhi : Nat) :
    FlmInv alo ahi blo bhi (findLongestMatch a b alo ahi blo bhi) := by
  unfold findLongestMatch
  apply foldlPreserve
  · exact Or.inl rfl
  · intro best i hbest hi
    apply foldlPreserve
    · exact hbest
    · intro best' j hbest' hj
      by_cases hlt : best'.2.2 < matchLen a b ahi bhi i j
      · simp only [if_pos hlt]
        right
        have hi' := List.mem_range'_1.mp hi
        have hj' := List.mem_range'_1.mp hj
        have hla := (matchLen_le a b ahi bhi i j).1
        have hlb := (matchLen_le a b ahi bhi i j).2
        show alo ≤ i ∧ blo ≤ j ∧ 0 < matchLen a b ahi bhi i j ∧
          i + matchLen a b ahi bhi i j ≤ ahi ∧ j + matchLen a b ahi bhi i j ≤ bhi
        refine ⟨by omega, by omega, by omega, by omega, by omega⟩
      · simp only [if_neg hlt]
        exact hbest'

theorem flm_pos {α : Type} [DecidableEq α] (a b : List α) (alo ahi blo bhi : Nat)
    (h : 0 < (findLongestMatch a b alo ahi blo bhi).2.2) :
    alo ≤ (findLongestMatch a b alo ahi blo bhi).1 ∧
      blo ≤ (findLongestMatch a b alo ahi blo bhi).2.1 ∧
      (findLongestMatch a b alo ahi blo bhi).1 +
        (findLongestMatch a b alo ahi blo bhi).2.2 ≤ ahi ∧
      (findLongestMatch a b alo ahi blo bhi).2.1 +
        (findLongestMatch a b alo ahi blo bhi).2.2 ≤ bhi := by
  rcases flm_inv a b alo ahi blo bhi with heq | hb
  · rw [heq] at h; simp at h
  · exact ⟨hb.1, hb.2.1, hb.2.2.2.1, hb.2.2.2.2⟩

theorem chained_mono {n m : Nat} :
    ∀ (l : List (Nat × Nat × Nat)) (i i' j j' : Nat), i' ≤ i → j' ≤ j →
      Chained n m i j l → Chained n m i' j' l := by
  intro l i i' j j' hi hj h
  cases l with
  | nil =>
    obtain ⟨h1, h2⟩ := h
    exact ⟨by omega, by omega⟩
  | cons blk rest =>
    obtain ⟨h1, h2, h3⟩ := h
    exact ⟨by omega, by omega, h3⟩

theorem chained_append {n m : Nat} :
    ∀ (l₁ : List (Nat × Nat × Nat)) (K L i j : Nat) (l₂ : List (Nat × Nat × Nat)),
      Chained K L i j l₁ → Chained n m K L l₂ → Chained n m i j (l₁ ++ l₂) := by
  intro l₁
  induction l₁ with
  | nil =>
    intro K L i j l₂ h1 h2
    exact chained_mono l₂ K i L j h1.1 h1.2 h2
  | cons blk l₁ ih =>
    intro K L i j l₂ h1 h2
    exact ⟨h1.1, h1.2.1, ih K L _ _ l₂ h1.2.2 h2⟩

theorem blocksGo_chained {α : Type} [DecidableEq α] (a b : List α) :
    ∀ (fuel alo ahi blo bhi : Nat), alo ≤ ahi → blo ≤ bhi →
      Chained ahi bhi alo blo (matchingBlocksGo a b fuel alo ahi blo bhi) := by
  intro fuel
  induction fuel with
  | zero => intro alo ahi blo bhi ha hb; rw [matchingBlocksGo]; exact ⟨ha, hb⟩
  | succ fuel ih =>
    intro alo ahi blo bhi ha hb
    rw [matchingBlocksGo]
    by_cases h : 0 < (findLongestMatch a b alo ahi blo bhi).2.2
    · simp only [if_pos h]
      have hp := flm_pos a b alo ahi blo bhi h
      apply chained_append _ (findLongestMatch a b alo ahi blo bhi).1
        (findLongestMatch a b alo ahi blo bhi).2.1
      · exact ih alo _ blo _ hp.1 hp.2.1
      · exact ⟨le_refl _, le_refl _, ih _ ahi _ bhi hp.2.2.1 hp.2.2.2⟩
    · simp only [if_neg h]
      exact ⟨ha, hb⟩

theorem blocks_chained {α : Type} [DecidableEq α] (a b : List α) :
    Chained a.length b.length 0 0 (getMatchingBlocks a b) := by
  unfold getMatchingBlocks
  apply chained_append _ a.length b.length
  · exact blocksGo_chained a b _ 0 a.length 0 b.length (by omega) (by omega)
  · exact ⟨le_refl _, le_refl _, Nat.le_of_eq (Nat.add_zero _), Nat.le_of_eq (Nat.add_zero _)⟩

theorem opsOrdered_mono {n m : Nat} :
    ∀ (l : List Op) (i i' j j' : Nat), i' ≤ i → j' ≤ j →
      OpsOrdered n m i j l → OpsOrdered n m i' j' l := by
  intro l i i' j j' hi hj h
  cases l with
  | nil =>
    obtain ⟨h1, h2⟩ := h
    exact ⟨by omega, by omega⟩
  | cons op rest =>
    obtain ⟨h1, h2, h3, h4, h5⟩ := h
    exact ⟨by omega, h2, by omega, h4, h5⟩

theorem opsOrdered_le {n m : Nat} :
    ∀ (l : List Op) (i j : Nat), OpsOrdered n m i j l → i ≤ n ∧ j ≤ m := by
  intro l
  induction l with
  | nil => intro i j h; exact h
  | cons op rest ih =>
    intro i j h
    obtain ⟨h1, h2, h3, h4, h5⟩ := h
    have := ih op.i2 op.j2 h5
    omega

theorem opcodesFrom_ordered {n m : Nat} :
    ∀ (blocks : List (Nat × Nat × Nat)) (i j : Nat), Chained n m i j blocks →
      OpsOrdered n m i j (opcodesFrom i j blocks) := by
  intro blocks
  induction blocks with
  | nil => intro i j h; rw [opcodesFrom]; exact h
  | cons blk rest ih =>
    intro i j h
    obtain ⟨hi, hj, hrest⟩ := h
    have hrec := ih (blk.1 + blk.2.2) (blk.2.1 + blk.2.2) hrest
    have heq : OpsOrdered n m blk.1 blk.2.1
        ((if 0 < blk.2.2 then
            [⟨"equal", blk.1, blk.1 + blk.2.2, blk.2.1, blk.2.1 + blk.2.2⟩]
          else []) ++ opcodesFrom (blk.1 + blk.2.2) (blk.2.1 + blk.2.2) rest) := by
      by_cases hsz : 0 < blk.2.2
      · simp only [if_pos hsz, List.cons_append, List.nil_append]
        exact ⟨le_refl _, Nat.le_add_right _ _, le_refl _, Nat.le_add_right _ _, hrec⟩
      · simp only [if_neg hsz, List.nil_append]
        exact opsOrdered_mono _ _ _ _ _ (by omega) (by omega) hrec
    rw [opcodesFrom]
    by_cases h1 : i < blk.1 ∧ j < blk.2.1
    · simp only [if_pos h1, List.cons_append, List.nil_append]
      exact ⟨le_refl _, hi, le_refl _, hj, heq⟩
    · simp only [if_neg h1]
      by_cases h2 : i < blk.1
      · simp only [if_pos h2, List.cons_append, List.nil_append]
        exact ⟨le_refl _, hi, le_refl _, hj, heq⟩
      · simp only [if_neg h2]
        by_cases h3 : j < blk.2.1
        · simp only [if_pos h3, List.cons_append, List.nil_append]
          exact ⟨le_refl _, hi, le_refl _, hj, heq⟩
        · simp only [if_neg h3, List.nil_append]
          exact opsOrdered_mono _ _ _ _ _ hi hj heq

theorem rangesOrdered_map {len : Nat} (toks : List (String × Nat × Nat)) (i0 : Nat)
    (htoks : ToksOrdered len i0 toks) (tag : String) :
    ∀ (L : List Nat) (lo : Nat), List.Pairwise (· < ·) L →
      (∀ k ∈ L, k < toks.length) →
      (∀ k ∈ L, lo ≤ (toks.getD k ("", 0, 0)).2.1) →
      RangesOrdered len lo
        (L.map fun k => ((toks.getD k ("", 0, 0)).2.1, (toks.getD k ("", 0, 0)).2.2, tag)) := by
  intro L
  induction L with
  | nil => intro lo _ _ _; simp only [List.map_nil]; trivial
  | cons k L ih =>
    intro lo hpw hbnd hlo
    obtain ⟨hkl, hpw'⟩ := List.pairwise_cons.mp hpw
    have hk := hbnd k (by simp)
    have hfacts := toksOrdered_getD toks i0 htoks k hk
    simp only [List.map_cons]
    refine ⟨hlo k (by simp), hfacts.2.1, hfacts.2.2, ?_⟩
    apply ih
    · exact hpw'
    · intro k' hk'; exact hbnd k' (by simp [hk'])
    · intro k' hk'
      exact toksOrdered_pair toks i0 htoks k k' (hkl k' hk') (hbnd k' (by simp [hk']))

theorem opsAIdx_facts {n m : Nat} :
    ∀ (ops : List Op) (i j : Nat), OpsOrdered n m i j ops →
      (∀ k ∈ ops.flatMap opAIdx, i ≤ k ∧ k < n) ∧
        List.Pairwise (· < ·) (ops.flatMap opAIdx) := by
  intro ops
  induction ops with
  | nil => intro i j _; simp
  | cons op rest ih =>
    intro i j h
    obtain ⟨h1, h2, h3, h4, h5⟩ := h
    obtain ⟨ihb, ihp⟩ := ih op.i2 op.j2 h5
    have hn : op.i2 ≤ n := (opsOrdered_le rest op.i2 op.j2 h5).1
    have hhead : ∀ k ∈ opAIdx op, op.i1 ≤ k ∧ k < op.i2 := by
      intro k hk
      unfold opAIdx at hk
      split at hk
      · have := List.mem_range'_1.mp hk
        omega
      · simp at hk
    rw [List.flatMap_cons]
    constructor
    · intro k hk
      rcases List.mem_append.mp hk with hk1 | hk2
      · have := hhead k hk1; omega
      · have := ihb k hk2; omega
    · rw [List.pairwise_append]
      refine ⟨?_, ihp, ?_⟩
      · unfold opAIdx
        split
        · exact List.pairwise_lt_range' _ _
        · exact List.Pairwise.nil
      · intro x hx y hy
        have hx' := hhead x hx
        have hy' := (ihb y hy).1
        omega

theorem opsBIdx_facts {n m : Nat} :
    ∀ (ops : List Op) (i j : Nat), OpsOrdered n m i j ops →
      (∀ k ∈ ops.flatMap opBIdx, j ≤ k ∧ k < m) ∧
        List.Pairwise (· < ·) (ops.flatMap opBIdx) := by
  intro ops
  induction ops with
  | nil => intro i j _; simp
  | cons op rest ih =>
    intro i j h
    obtain ⟨h1, h2, h3, h4, h5⟩ := h
    obtain ⟨ihb, ihp⟩ := ih op.i2 op.j2 h5
    have hm : op.j2 ≤ m := (opsOrdered_le rest op.i2 op.j2 h5).2
    have hhead : ∀ k ∈ opBIdx op, op.j1 ≤ k ∧ k < op.j2 := by
      intro k hk
      unfold opBIdx at hk
      split at hk
      · have := List.mem_range'_1.mp hk
        omega
      · simp at hk
    rw [List.flatMap_cons]
    constructor
    · intro k hk
      rcases List.mem_append.mp hk with hk1 | hk2
      · have := hhead k hk1; omega
      · have := ihb k hk2; omega
    · rw [List.pairwise_append]
      refine ⟨?_, ihp, ?_⟩
      · unfold opBIdx
        split
        · exact List.pairwise_lt_range' _ _
        · exact List.Pairwise.nil
      · intro x hx y hy
        have hx' := hhead x hx
        have hy' := (ihb y hy).1
        omega

theorem perOpA (toks : List (String × Nat × Nat)) (op : Op) :
    (if op.tag = "delete" then tokRanges toks op.i1 op.i2 "delete"
     else if op.tag = "replace" then tokRanges toks op.i1 op.i2 "delete"
     else []) =
      (opAIdx op).map fun k =>
        ((toks.getD k ("", 0, 0)).2.1, (toks.getD k ("", 0, 0)).2.2, "delete") := by
  unfold opAIdx tokRanges
  by_cases h1 : op.tag = "delete"
  · simp [h1]
  · by_cases h2 : op.tag = "replace" <;> simp [h1, h2]

theorem perOpB (toks : List (String × Nat × Nat)) (op : Op) :
    (if op.tag = "insert" then tokRanges toks op.j1 op.j2 "insert"
     else if op.tag = "replace" then tokRanges toks op.j1 op.j2 "insert"
     else []) =
      (opBIdx op).map fun k =>
        ((toks.getD k ("", 0, 0)).2.1, (toks.getD k ("", 0, 0)).2.2, "insert") := by
  unfold opBIdx tokRanges
  by_cases h1 : op.tag = "insert"
  · simp [h1]
  · by_cases h2 : op.tag = "replace" <;> simp [h1, h2]

theorem highlight_fst_map (original corrected : List Char) :
    (highlightChanges original corrected).1 =
      ((getOpcodes ((tokenizeWithPositions original).map (·.1))
            ((tokenizeWithPositions corrected).map (·.1))).flatMap opAIdx).map
        (fun k => (((tokenizeWithPositions original).getD k ("", 0, 0)).2.1,
          ((tokenizeWithPositions original).getD k ("", 0, 0)).2.2, "delete")) := by
  show ((getOpcodes ((tokenizeWithPositions original).map (·.1))
        ((tokenizeWithPositions corrected).map (·.1))).flatMap fun op =>
      if op.tag = "delete" then tokRanges (tokenizeWithPositions original) op.i1 op.i2 "delete"
      else if op.tag = "replace" then
        tokRanges (tokenizeWithPositions original) op.i1 op.i2 "delete"
      else []) = _
  simp only [perOpA]
  rw [← List.map_flatMap]

theorem highlight_snd_map (original corrected : List Char) :
    (highlightChanges original corrected).2 =
      ((getOpcodes ((tokenizeWithPositions original).map (·.1))
            ((tokenizeWithPositions corrected).map (·.1))).flatMap opBIdx).map
        (fun k => (((tokenizeWithPositions corrected).getD k ("", 0, 0)).2.1,
          ((tokenizeWithPositions corrected).getD k ("", 0, 0)).2.2, "insert")) := by
  show ((getOpcodes ((tokenizeWithPositions original).map (·.1))
        ((tokenizeWithPositions corrected).map (·.1))).flatMap fun op =>
      if op.tag = "insert" then tokRanges (tokenizeWithPositions corrected) op.j1 op.j2 "insert"
      else if op.tag = "replace" then
        tokRanges (tokenizeWithPositions corrected) op.j1 op.j2 "insert"
      else []) = _
  simp only [perOpB]
  rw [← List.map_flatMap]

theorem highlight_ops_ordered (original corrected : List Char) :
    OpsOrdered (tokenizeWithPositions original).length
      (tokenizeWithPositions corrected).length 0 0
      (getOpcodes ((tokenizeWithPositions original).map (·.1))
        ((tokenizeWithPositions corrected).map (·.1))) := by
  have hch := blocks_chained ((tokenizeWithPositions original).map (·.1))
    ((tokenizeWithPositions corrected).map (·.1))
  rw [List.length_map, List.length_map] at hch
  exact opcodesFrom_ordered _ 0 0 hch

set_option maxHeartbeats 1600000 in
/-- C10: every highlight tuple produced by `highlight_changes` satisfies
`0 ≤ start < end ≤ length` of the text it indexes (the original for
`"delete"` tuples, the corrected for `"insert"` tuples), and within each of
the two returned lists the ranges are pairwise non-overlapping and in
ascending start order. -/
theorem diff_highlight_invariants (original corrected : List Char) :
    RangesOrdered original.length 0 (highlightChanges original corrected).1 ∧
      (∀ r ∈ (highlightChanges original corrected).1, r.2.2 = "delete") ∧
      RangesOrdered corrected.length 0 (highlightChanges original corrected).2 ∧
      (∀ r ∈ (highlightChanges original corrected).2, r.2.2 = "insert") := by
  have htoksO := tokenizeGo_ordered original (original.length + 1) 0
  have htoksC := tokenizeGo_ordered corrected (corrected.length + 1) 0
  have hord := highlight_ops_ordered original corrected
  have hAf := (opsAIdx_facts _ 0 0 hord).1
  have hAp := (opsAIdx_facts _ 0 0 hord).2
  have hBf := (opsBIdx_facts _ 0 0 hord).1
  have hBp := (opsBIdx_facts _ 0 0 hord).2
  refine ⟨?_, ?_, ?_, ?_⟩
  · rw [highlight_fst_map]
    exact rangesOrdered_map (tokenizeWithPositions original) 0 htoksO "delete" _ 0 hAp
      (fun k hk => (hAf k hk).2) (fun k _ => Nat.zero_le _)
  · rw [highlight_fst_map]
    intro r hr
    obtain ⟨k, _, hk⟩ := List.mem_map.mp hr
    rw [← hk]
  · rw [highlight_snd_map]
    exact rangesOrdered_map (tokenizeWithPositions corrected) 0 htoksC "insert" _ 0 hBp
      (fun k hk => (hBf k hk).2) (fun k _ => Nat.zero_le _)
  · rw [highlight_snd_map]
    intro r hr
    obtain ⟨k, _, hk⟩ := List.mem_map.mp hr
    rw [← hk]

set_option maxHeartbeats 1600000 in
/-- C8: every `(start, end, "delete")` tuple emitted by `highlight_changes`
is the exact extent of a token of the original text and lies within it,
every `(start, end, "insert")` tuple is the exact extent of a token of the
corrected text and lies within it (tokens of `equal` opcodes are never
highlighted — only `delete`/`replace` opcodes contribute to the original
side and only `insert`/`replace` to the corrected side), and on the
original `"The fox jump."` and corrected `"The fox jumps."` the delete
range covers exactly `"jump"` and the insert range exactly `"jumps"`. -/
theorem diff_word_highlight_tokens (original corrected : List Char) :
    (∀ r ∈ (highlightChanges original corrected).1,
      r.2.2 = "delete" ∧ ∃ tk ∈ tokenizeWithPositions original,
        r.1 = tk.2.1 ∧ r.2.1 = tk.2.2 ∧ r.1 < r.2.1 ∧ r.2.1 ≤ original.length) ∧
    (∀ r ∈ (highlightChanges original corrected).2,
      r.2.2 = "insert" ∧ ∃ tk ∈ tokenizeWithPositions corrected,
        r.1 = tk.2.1 ∧ r.2.1 = tk.2.2 ∧ r.1 < r.2.1 ∧ r.2.1 ≤ corrected.length) ∧
    highlightChanges "The fox jump.".data "The fox jumps.".data =
      ([(8, 12, "delete")], [(8, 13, "insert")]) := by
  have htoksO := tokenizeGo_ordered original (original.length + 1) 0
  have htoksC := tokenizeGo_ordered corrected (corrected.length + 1) 0
  have hord := highlight_ops_ordered original corrected
  have hAf := (opsAIdx_facts _ 0 0 hord).1
  have hBf := (opsBIdx_facts _ 0 0 hord).1
  refine ⟨?_, ?_, by decide⟩
  · rw [highlight_fst_map]
    intro r hr
    obtain ⟨k, hkmem, hk⟩ := List.mem_map.mp hr
    have hklt := (hAf k hkmem).2
    have hfacts := toksOrdered_getD (tokenizeWithPositions original) 0 htoksO k hklt
    refine ⟨by rw [← hk], ⟨(tokenizeWithPositions original).getD k ("", 0, 0), ?_, ?_⟩⟩
    · rw [List.getD_eq_getElem _ _ hklt]
      exact List.getElem_mem hklt
    · rw [← hk]
      exact ⟨rfl, rfl, hfacts.2.1, hfacts.2.2⟩
  · rw [highlight_snd_map]
    intro r hr
    obtain ⟨k, hkmem, hk⟩ := List.mem_map.mp hr
    have hklt := (hBf k hkmem).2
    have hfacts := toksOrdered_getD (tokenizeWithPositions corrected) 0 htoksC k hklt
    refine ⟨by rw [← hk], ⟨(tokenizeWithPositions corrected).getD k ("", 0, 0), ?_, ?_⟩⟩
    · rw [List.getD_eq_getElem _ _ hklt]
      exact List.getElem_mem hklt
    · rw [← hk]
      exact ⟨rfl, rfl, hfacts.2.1, hfacts.2.2⟩

theorem emitModifiedGo_proj (origPs corrPs : List (List Char)) :
    ∀ (pairs : List (Nat × Nat)) (line para : Nat),
      (emitModifiedGo origPs corrPs pairs line para).map
          (fun b => (b.changeType, b.originalText, b.correctedText)) =
        pairs.map fun ij => ("modified", origPs.getD ij.1 [], corrPs.getD ij.2 []) := by
  intro pairs
  induction pairs with
  | nil => intro line para; rfl
  | cons ij rest ih =>
    intro line para
    simp only [emitModifiedGo, List.map_cons]
    rw [ih]

theorem emitDeletedGo_proj (origPs : List (List Char)) :
    ∀ (idxs : List Nat) (line para : Nat),
      (emitDeletedGo origPs idxs line para).map
          (fun b => (b.changeType, b.originalText, b.correctedText)) =
        idxs.map fun i => ("deleted", origPs.getD i [], ([] : List Char)) := by
  intro idxs
  induction idxs with
  | nil => intro line para; rfl
  | cons i rest ih =>
    intro line para
    simp only [emitDeletedGo, List.map_cons]
    rw [ih]

theorem emitAddedGo_proj (corrPs : List (List Char)) :
    ∀ (idxs : List Nat) (line para : Nat),
      (emitAddedGo corrPs idxs line para).map
          (fun b => (b.changeType, b.originalText, b.correctedText)) =
        idxs.map fun j => ("added", ([] : List Char), corrPs.getD j []) := by
  intro idxs
  induction idxs with
  | nil => intro line para; rfl
  | cons j rest ih =>
    intro line para
    simp only [emitAddedGo, List.map_cons]
    rw [ih]

theorem emitBlocksGo_proj (origPs corrPs : List (List Char)) :
    ∀ (ops : List Op) (line para : Nat),
      (emitBlocksGo origPs corrPs ops line para).map
          (fun b => (b.changeType, b.originalText, b.correctedText)) =
        ops.flatMap fun op =>
          if op.tag = "equal" then []
          else if op.tag = "replace" then
            ((List.range' op.i1 (op.i2 - op.i1)).zip
                (List.range' op.j1 (op.j2 - op.j1))).map
              fun ij => ("modified", origPs.getD ij.1 [], corrPs.getD ij.2 [])
          else if op.tag = "delete" then
            (List.range' op.i1 (op.i2 - op.i1)).map
              fun i => ("deleted", origPs.getD i [], ([] : List Char))
          else if op.tag = "insert" then
            (List.range' op.j1 (op.j2 - op.j1)).map
              fun j => ("added", ([] : List Char), corrPs.getD j [])
          else [] := by
  intro ops
  induction ops with
  | nil => intro line para; rfl
  | cons op rest ih =>
    intro line para
    rw [List.flatMap_cons, emitBlocksGo]
    by_cases h1 : op.tag = "equal"
    · simp only [if_pos h1, List.nil_append]
      exact ih _ _
    · simp only [if_neg h1]
      by_cases h2 : op.tag = "replace"
      · simp only [if_pos h2, List.map_append, emitModifiedGo_proj, ih]
      · simp only [if_neg h2]
        by_cases h3 : op.tag = "delete"
        · simp only [if_pos h3, List.map_append, emitDeletedGo_proj, ih]
        · simp only [if_neg h3]
          by_cases h4 : op.tag = "insert"
          · simp only [if_pos h4, List.map_append, emitAddedGo_proj, ih]
          · simp only [if_neg h4, List.nil_append]
            exact ih _ _

/-- C4: projected to `(change_type, original_text, corrected_text)`, the
opcode loop emits, for each opcode in order: nothing for `equal`; one
`"modified"` block per aligned (zipped) paragraph pair for `replace`; one
`"deleted"` block per original paragraph of a `delete` opcode; one
`"added"` block per corrected paragraph of an `insert` opcode.  On the
concrete pair `"A.\n\nB.\n\nC."` / `"A.\n\nB2.\n\nC."` the result is exactly
one DiffBlock with `paragraph_number = 2`, `change_type = "modified"`,
`original_text = "B."`, `corrected_text = "B2."`. -/
theorem diff_paragraph_blocks :
    (∀ (origPs corrPs : List (List Char)) (ops : List Op) (line para : Nat),
      (emitBlocksGo origPs corrPs ops line para).map
          (fun b => (b.changeType, b.originalText, b.correctedText)) =
        ops.flatMap fun op =>
          if op.tag = "equal" then []
          else if op.tag = "replace" then
            ((List.range' op.i1 (op.i2 - op.i1)).zip
                (List.range' op.j1 (op.j2 - op.j1))).map
              fun ij => ("modified", origPs.getD ij.1 [], corrPs.getD ij.2 [])
          else if op.tag = "delete" then
            (List.range' op.i1 (op.i2 - op.i1)).map
              fun i => ("deleted", origPs.getD i [], ([] : List Char))
          else if op.tag = "insert" then
            (List.range' op.j1 (op.j2 - op.j1)).map
              fun j => ("added", ([] : List Char), corrPs.getD j [])
          else []) ∧
    computeParagraphDiffs "A.\n\nB.\n\nC.".data "A.\n\nB2.\n\nC.".data =
      [⟨2, "B.".data, "B2.".data, "modified", 2, [(0, 1, "delete")], [(0, 2, "insert")]⟩] := by
  refine ⟨?_, by decide⟩
  intro origPs corrPs ops line para
  exact emitBlocksGo_proj origPs corrPs ops line para
